import Mathlib

/-!
Verification of the Argos streaming log-anomaly detector (Go).

This file gives a shallow embedding of the Argos pipeline's pure core —
the parser's field extraction (`parser/parser.go`), the analyzer's rule
evaluation, Bloom filter and window counter (`analyzer/analyzer.go`,
`analyzer/bloomfilter.go`) and the ingestor's startup error path
(`ingestor/ingestor.go`) — and proves or refutes the specification's
claims about them.  Go machine integers are modelled as `Nat` with
explicit reduction modulo `2 ^ 64`; Go maps with zero-valued lookup are
modelled as total functions with default values; Go strings are Lean
strings with an explicit UTF-8 byte encoding.
-/

set_option maxRecDepth 20000

/-- UTF-8 encoding of a single character as a list of byte values,
mirroring how Go lays out a `string`. -/
def charUtf8 (c : Char) : List Nat :=
  let n := c.toNat
  if n < 0x80 then [n]
  else if n < 0x800 then
    [0xC0 ||| (n >>> 6), 0x80 ||| (n &&& 0x3F)]
  else if n < 0x10000 then
    [0xE0 ||| (n >>> 12), 0x80 ||| ((n >>> 6) &&& 0x3F), 0x80 ||| (n &&& 0x3F)]
  else
    [0xF0 ||| (n >>> 18), 0x80 ||| ((n >>> 12) &&& 0x3F),
     0x80 ||| ((n >>> 6) &&& 0x3F), 0x80 ||| (n &&& 0x3F)]

/-- The UTF-8 byte sequence of a string, as Go's `[]byte(s)` produces it. -/
def utf8Bytes (s : String) : List Nat :=
  (s.data.map charUtf8).flatten

/-- Go's `len` on the string built from these characters: the number of
UTF-8 bytes. -/
def utf8Length (w : List Char) : Nat :=
  ((w.map charUtf8).flatten).length

/-- FNV-1a 64-bit hash of a byte sequence, as `hash/fnv`'s `New64a`
computes it: offset basis 14695981039346656037, prime 1099511628211,
all arithmetic modulo `2 ^ 64`. -/
def fnv1a64 (bytes : List Nat) : Nat :=
  bytes.foldl (fun h b => ((h ^^^ (b % 256)) * 1099511628211) % (2 ^ 64))
    14695981039346656037

/-- `BloomFilter` from `analyzer/bloomfilter.go`: a fixed-size bit array
with `hashCount` seeded hash functions.  The Go `[]bool` bit array is
modelled as a total function from indices to `Bool`. -/
structure BloomFilter where
  bits : Nat → Bool
  size : Nat
  hashCount : Nat

/-- `NewBloomFilter`: all bits start cleared. -/
def NewBloomFilter (size hashCount : Nat) : BloomFilter :=
  { bits := fun _ => false, size := size, hashCount := hashCount }

/-- `BloomFilter.hash`: FNV-1a over the item's bytes followed by the
single byte `byte(seed)`. -/
def BloomFilter.hash (_bf : BloomFilter) (item : String) (seed : Nat) : Nat :=
  fnv1a64 (utf8Bytes item ++ [seed % 256])

/-- `BloomFilter.Add`: for each seed `i < hashCount`, set bit
`hash(item, i) % size`. -/
def BloomFilter.Add (bf : BloomFilter) (item : String) : BloomFilter :=
  { bf with
    bits := fun j =>
      bf.bits j || (List.range bf.hashCount).any fun i => bf.hash item i % bf.size == j }

/-- `BloomFilter.Contains`: true iff every one of the `hashCount`
addressed bits is set. -/
def BloomFilter.Contains (bf : BloomFilter) (item : String) : Bool :=
  (List.range bf.hashCount).all fun i => bf.bits (bf.hash item i % bf.size)

/-- `BloomFilter.Clear`: zero every bit. -/
def BloomFilter.Clear (bf : BloomFilter) : BloomFilter :=
  { bf with bits := fun _ => false }

/-- Fold `Add` over a list of items; used to speak about an arbitrary
sequence of insertions between two `Clear` calls. -/
def BloomFilter.addAll (bf : BloomFilter) (items : List String) : BloomFilter :=
  items.foldl BloomFilter.Add bf

/-- `LogEntry` from `ingestor/ingestor.go`: the raw wire record. -/
structure LogEntry where
  Timestamp : String
  Level : String
  Source : String
  Message : String
deriving DecidableEq, Repr

/-- `ParsedLog` from `parser/parser.go`: the raw record plus derived
fields. -/
structure ParsedLog where
  Timestamp : String
  Level : String
  Source : String
  Message : String
  IP : String
  ErrorCode : String
  Keywords : List String
deriving DecidableEq, Repr

/-- Whitespace as Go's `unicode.IsSpace` classifies it over the Latin-1
range (the only characters `strings.Fields` separates on in the inputs
modelled here): space, tab, newline, vertical tab, form feed, carriage
return, next line, and no-break space. -/
def isSpaceGo (c : Char) : Bool :=
  c == ' ' || c == '\t' || c == '\n' || c == Char.ofNat 0x0B ||
    c == Char.ofNat 0x0C || c == '\r' || c == Char.ofNat 0x85 || c == Char.ofNat 0xA0

/-- Worker loop of Go's `strings.Fields`: accumulate the current word in
reverse and cut at every whitespace run. -/
def fieldsAux : List Char → List Char → List (List Char)
  | [], acc => if acc.isEmpty then [] else [acc.reverse]
  | c :: cs, acc =>
    if isSpaceGo c then
      if acc.isEmpty then fieldsAux cs [] else acc.reverse :: fieldsAux cs []
    else
      fieldsAux cs (c :: acc)

/-- `strings.Fields`: the maximal whitespace-free substrings, in order. -/
def fieldsGo (l : List Char) : List (List Char) :=
  fieldsAux l []

/-- The cutset `".,;:!?"` passed to `strings.Trim` in `Parser.parse`. -/
def punctCutset : List Char := ['.', ',', ';', ':', '!', '?']

/-- `strings.Trim`: remove every leading and every trailing character
belonging to the cutset. -/
def trimGo (cutset : List Char) (w : List Char) : List Char :=
  ((w.dropWhile (fun c => cutset.contains c)).reverse.dropWhile
    (fun c => cutset.contains c)).reverse

/-- `strings.ToLower` restricted to ASCII, which is exact on the ASCII
cutset and keyword alphabet handled by the rules (Go additionally lowers
non-ASCII letters). -/
def toLowerGo (w : List Char) : List Char :=
  w.map Char.toLower

/-- Word characters for RE2's `\b`: ASCII letters, digits and underscore. -/
def isWordChar (c : Char) : Bool :=
  c.isAlphanum || c == '_'

/-- An RE2 word boundary sits between the end of a match and `rest` iff
`rest` is exhausted or starts with a non-word character (the last matched
character being a word character). -/
def boundaryAfter (rest : List Char) : Bool :=
  match rest with
  | [] => true
  | c :: _ => !isWordChar c

/-- Leading digit run of the input together with the remainder; RE2's
greedy `\d{1,3}` followed by a non-digit is forced to consume exactly
this run. -/
def digitRun (l : List Char) : List Char × List Char :=
  (l.takeWhile Char.isDigit, l.dropWhile Char.isDigit)

/-- Match `(?:\d{1,3}\.){3}\d{1,3}\b` at the head of the input, returning
the matched characters.  Greedy backtracking is resolved: `\d{1,3}\.`
matches iff the digit run has length 1–3 and is followed by `'.'`, and
the final `\d{1,3}\b` matches iff the digit run has length 1–3 and is
followed by a word boundary. -/
def matchIPHere (l : List Char) : Option (List Char) :=
  let (d1, r1) := digitRun l
  if d1.length < 1 || 3 < d1.length then none else
  match r1 with
  | '.' :: r1' =>
    let (d2, r2) := digitRun r1'
    if d2.length < 1 || 3 < d2.length then none else
    match r2 with
    | '.' :: r2' =>
      let (d3, r3) := digitRun r2'
      if d3.length < 1 || 3 < d3.length then none else
      match r3 with
      | '.' :: r3' =>
        let (d4, r4) := digitRun r3'
        if d4.length < 1 || 3 < d4.length then none else
        if boundaryAfter r4 then
          some (d1 ++ '.' :: d2 ++ '.' :: d3 ++ '.' :: d4)
        else none
      | _ => none
    | _ => none
  | _ => none

/-- Leftmost-match scan for the IP regex: try each start position in
order; a match can only start where `\b` holds, i.e. where the previous
character (if any) is a non-word character. -/
def findIPFrom : Option Char → List Char → Option (List Char)
  | _, [] => none
  | prev, c :: cs =>
    if (match prev with | none => true | some p => !isWordChar p) then
      match matchIPHere (c :: cs) with
      | some m => some m
      | none => findIPFrom (some c) cs
    else
      findIPFrom (some c) cs

/-- `Parser.ipRegex.FindString`: the leftmost match of
`\b(?:\d{1,3}\.){3}\d{1,3}\b`, or `""`. -/
def ipRegexFindString (s : String) : String :=
  match findIPFrom none s.data with
  | some m => String.mk m
  | none => ""

/-- Match `(?:ERROR|FATAL|CRITICAL|[45]\d{2})\b` at the head of the
input, trying the alternatives in RE2's preference order. -/
def matchErrorHere (l : List Char) : Option (List Char) :=
  if l.take 5 = "ERROR".data && boundaryAfter (l.drop 5) then some "ERROR".data
  else if l.take 5 = "FATAL".data && boundaryAfter (l.drop 5) then some "FATAL".data
  else if l.take 8 = "CRITICAL".data && boundaryAfter (l.drop 8) then some "CRITICAL".data
  else
    match l with
    | a :: b :: c :: rest =>
      if (a == '4' || a == '5') && b.isDigit && c.isDigit && boundaryAfter rest then
        some [a, b, c]
      else none
    | _ => none

/-- Leftmost-match scan for the error-code regex, gated by the leading
word boundary exactly as `findIPFrom` is. -/
def findErrorFrom : Option Char → List Char → Option (List Char)
  | _, [] => none
  | prev, c :: cs =>
    if (match prev with | none => true | some p => !isWordChar p) then
      match matchErrorHere (c :: cs) with
      | some m => some m
      | none => findErrorFrom (some c) cs
    else
      findErrorFrom (some c) cs

/-- `Parser.errorRegex.FindString`: the leftmost match of
`\b(?:ERROR|FATAL|CRITICAL|[45]\d{2})\b`, or `""`. -/
def errorRegexFindString (s : String) : String :=
  match findErrorFrom none s.data with
  | some m => String.mk m
  | none => ""

/-- Keyword extraction loop of `Parser.parse`: split the message on
whitespace, trim the punctuation cutset from both ends of each word,
lowercase it, and keep it iff its byte length exceeds 3. -/
def keywordsOf (message : String) : List String :=
  (((fieldsGo message.data).map fun w => toLowerGo (trimGo punctCutset w)).filter
    fun w => 3 < utf8Length w).map String.mk

/-- `Parser.parse`: carry the four raw fields through unchanged and fill
the derived `IP`, `ErrorCode` and `Keywords` fields. -/
def parse (entry : LogEntry) : ParsedLog :=
  { Timestamp := entry.Timestamp
    Level := entry.Level
    Source := entry.Source
    Message := entry.Message
    IP := ipRegexFindString entry.Message
    ErrorCode := errorRegexFindString entry.Message
    Keywords := keywordsOf entry.Message }

/-- `Rule` from `analyzer/analyzer.go`: a named predicate with a
severity. -/
structure Rule where
  Name : String
  Check : ParsedLog → Bool
  Severity : String

/-- The suspicious-keyword list of the `Suspicious Keywords` rule. -/
def suspiciousWords : List String :=
  ["attack", "breach", "unauthorized", "exploit", "malicious"]

/-- `Analyzer.initializeRules`: the four default rules in registration
order. -/
def initializeRules : List Rule :=
  [ { Name := "Critical Error Level"
      Check := fun log => log.Level == "CRITICAL" || log.Level == "FATAL"
      Severity := "HIGH" }
  , { Name := "Error Code 5xx"
      Check := fun log => log.ErrorCode.data.head? == some '5'
      Severity := "HIGH" }
  , { Name := "Suspicious Keywords"
      Check := fun log => log.Keywords.any fun kw => suspiciousWords.contains kw
      Severity := "MEDIUM" }
  , { Name := "Error Rate Threshold"
      Check := fun log => log.Level == "ERROR"
      Severity := "MEDIUM" } ]

/-- The metadata map attached to every `Alert`; it always holds exactly
the keys `is_known_pattern`, `count_in_window` and `rule_name`. -/
structure AlertMetadata where
  is_known_pattern : Bool
  count_in_window : Nat
  rule_name : String
deriving DecidableEq, Repr

/-- `Alert` from `analyzer/analyzer.go`.  The emission timestamp
(`time.Now()`) is an external input, passed in as `now`. -/
structure Alert where
  Timestamp : String
  Severity : String
  Reason : String
  Log : ParsedLog
  Metadata : AlertMetadata
deriving DecidableEq, Repr

/-- The analyzer's mutable state: its Bloom filter and its window
counter map (a Go `map[string]int`, modelled as a total function whose
lookups default to zero). -/
structure AnalyzerState where
  bloomFilter : BloomFilter
  windowCount : String → Nat

/-- `NewAnalyzer`'s initial state: a 100000-bit, 3-hash Bloom filter and
an empty counter map. -/
def NewAnalyzerState : AnalyzerState :=
  { bloomFilter := NewBloomFilter 100000 3, windowCount := fun _ => 0 }

/-- The counter block of `Analyzer.processLog` under the window mutex:
`windowCount[key]++` followed by reading `windowCount[key]` — the
returned count is the post-increment value. -/
def incrementWindow (st : AnalyzerState) (key : String) : Nat × AnalyzerState :=
  let c := st.windowCount key + 1
  (c, { st with windowCount := fun k => if k = key then c else st.windowCount k })

/-- The rule loop of `Analyzer.processLog` with shutdown never observed:
for each rule in registration order whose predicate holds, sample the
Bloom filter, add the key, take the post-increment window count, and
emit the alert. -/
def processRules (now : String) (logEntry : ParsedLog) :
    List Rule → AnalyzerState → List Alert × AnalyzerState
  | [], st => ([], st)
  | rule :: rest, st =>
    if rule.Check logEntry then
      let bloomKey := rule.Name ++ ":" ++ logEntry.Source
      let isKnownPattern := st.bloomFilter.Contains bloomKey
      let st1 : AnalyzerState := { st with bloomFilter := st.bloomFilter.Add bloomKey }
      let countKey := rule.Name ++ ":" ++ logEntry.Source
      let counted := incrementWindow st1 countKey
      let alert : Alert :=
        { Timestamp := now
          Severity := rule.Severity
          Reason := rule.Name
          Log := logEntry
          Metadata :=
            { is_known_pattern := isKnownPattern
              count_in_window := counted.1
              rule_name := rule.Name } }
      let rest' := processRules now logEntry rest counted.2
      (alert :: rest'.1, rest'.2)
    else
      processRules now logEntry rest st

/-- `Analyzer.processLog` on the default rule set, when no shutdown is
observed at any send. -/
def processLog (now : String) (st : AnalyzerState) (logEntry : ParsedLog) :
    List Alert × AnalyzerState :=
  processRules now logEntry initializeRules st

/-- One tick of `Analyzer.cleanupWindow`: replace the counter map by a
fresh empty one; the Bloom filter is left untouched. -/
def cleanupWindow (st : AnalyzerState) : AnalyzerState :=
  { st with windowCount := fun _ => 0 }

/-- The two inputs the analyzer's two loops react to: a parsed record
arriving on Q2, or a window-reset tick. -/
inductive AnalyzerEvent where
  | log (entry : ParsedLog)
  | tick
  

/-- Run the analyzer over a sequence of events, collecting every alert
sent to Q3 in order. -/
def runAnalyzer (now : String) : AnalyzerState → List AnalyzerEvent → List Alert × AnalyzerState
  | st, [] => ([], st)
  | st, AnalyzerEvent.log entry :: rest =>
    let r := processLog now st entry
    let r' := runAnalyzer now r.2 rest
    (r.1 ++ r'.1, r'.2)
  | st, AnalyzerEvent.tick :: rest =>
    runAnalyzer now (cleanupWindow st) rest

/-- The rule loop of `Analyzer.processLog` with an explicit shutdown
oracle: `σ 0` tells whether the next cancellable send on Q3 observes the
shutdown signal (the oracle is shifted by one at each send).  When a
send observes shutdown the alert is abandoned and the loop returns
immediately; the Bloom add and the counter increment for that rule have
already happened. -/
def processRulesShutdown (σ : Nat → Bool) (now : String) (logEntry : ParsedLog) :
    List Rule → AnalyzerState → List Alert × AnalyzerState
  | [], st => ([], st)
  | rule :: rest, st =>
    if rule.Check logEntry then
      let bloomKey := rule.Name ++ ":" ++ logEntry.Source
      let isKnownPattern := st.bloomFilter.Contains bloomKey
      let st1 : AnalyzerState := { st with bloomFilter := st.bloomFilter.Add bloomKey }
      let countKey := rule.Name ++ ":" ++ logEntry.Source
      let counted := incrementWindow st1 countKey
      let alert : Alert :=
        { Timestamp := now
          Severity := rule.Severity
          Reason := rule.Name
          Log := logEntry
          Metadata :=
            { is_known_pattern := isKnownPattern
              count_in_window := counted.1
              rule_name := rule.Name } }
      if σ 0 then
        ([], counted.2)
      else
        let rest' := processRulesShutdown (fun i => σ (i + 1)) now logEntry rest counted.2
        (alert :: rest'.1, rest'.2)
    else
      processRulesShutdown σ now logEntry rest st

/-- `Analyzer.processLog` with a shutdown oracle, on the default rules. -/
def processLogShutdown (σ : Nat → Bool) (now : String) (st : AnalyzerState)
    (logEntry : ParsedLog) : List Alert × AnalyzerState :=
  processRulesShutdown σ now logEntry initializeRules st

/-- The `(ruleName, source)` key of an alert, recoverable from the alert
itself as `metadata.rule_name ++ ":" ++ log.Source`. -/
def alertKey (a : Alert) : String :=
  a.Metadata.rule_name ++ ":" ++ a.Log.Source

/-- The alerts of a batch that carry key `K`, in emission order. -/
def kAlertsOf (alerts : List Alert) (K : String) : List Alert :=
  alerts.filter fun a => alertKey a == K

/-- The `is_known_pattern` flags of the alerts for key `K`. -/
def flagsOf (alerts : List Alert) (K : String) : List Bool :=
  (kAlertsOf alerts K).map fun a => a.Metadata.is_known_pattern

/-- The `count_in_window` values of the alerts for key `K`. -/
def countsOf (alerts : List Alert) (K : String) : List Nat :=
  (kAlertsOf alerts K).map fun a => a.Metadata.count_in_window

/-- The `is_known_pattern` flags of the alerts for key `K`, in emission
order, over a run of the analyzer from state `st`. -/
def kFlagsFrom (now : String) (st : AnalyzerState) (events : List AnalyzerEvent)
    (K : String) : List Bool :=
  flagsOf (runAnalyzer now st events).1 K

/-- The `count_in_window` values of the alerts for key `K`, in emission
order, over a run of the analyzer from state `st`. -/
def kCountsFrom (now : String) (st : AnalyzerState) (events : List AnalyzerEvent)
    (K : String) : List Nat :=
  countsOf (runAnalyzer now st events).1 K

/-- Outcome of one of the ingestor's listener goroutines, as far as the
caller can observe it: either the listener is accepting connections, or
the goroutine logged the bind error and returned. -/
inductive ListenerOutcome where
  | accepting
  | bindErrorLogged
deriving DecidableEq, Repr

/-- `Ingestor.startTCPServer`: `net.Listen` either succeeds, after which
the accept loop runs, or fails, after which the goroutine logs
`"TCP server error"` and returns — the error goes nowhere else. -/
def startTCPServer (bindOk : Bool) : ListenerOutcome :=
  if bindOk then ListenerOutcome.accepting else ListenerOutcome.bindErrorLogged

/-- `Ingestor.startHTTPServer`: `ListenAndServe` either accepts, or
returns an error that the goroutine merely logs. -/
def startHTTPServer (bindOk : Bool) : ListenerOutcome :=
  if bindOk then ListenerOutcome.accepting else ListenerOutcome.bindErrorLogged

/-- `Ingestor.Start`: spawn the two server goroutines and return.  The
returned `error` is `nil` on every path — the function does not wait for
either bind to succeed. -/
def IngestorStart (httpBindOk tcpBindOk : Bool) :
    Option String × ListenerOutcome × ListenerOutcome :=
  (none, startHTTPServer httpBindOk, startTCPServer tcpBindOk)

/-- The flag sequence the amended C2 predicts for a key: `false` once,
then `true` forever. -/
def falseThenTrues : Nat → List Bool
  | 0 => []
  | n + 1 => false :: List.replicate n true

/-- Scenario S3: two consecutive CRITICAL records from source `api` on a
fresh analyzer. -/
def s3Events : List AnalyzerEvent :=
  [AnalyzerEvent.log (parse { Timestamp := "t", Level := "CRITICAL", Source := "api", Message := "x" }),
   AnalyzerEvent.log (parse { Timestamp := "t", Level := "CRITICAL", Source := "api", Message := "x" })]

/-- An analyzer state whose Bloom filter has every bit set; a concrete
state with a set bit for the C9 witness. -/
def allSetAnalyzerState : AnalyzerState :=
  { bloomFilter := { bits := fun _ => true, size := 100000, hashCount := 3 }
    windowCount := fun _ => 0 }

/-- State effect of one firing rule in `Analyzer.processLog`: the Bloom
add for the key followed by the window-counter increment. -/
def noteAlert (st : AnalyzerState) (key : String) : AnalyzerState :=
  (incrementWindow { st with bloomFilter := st.bloomFilter.Add key } key).2

/-- The keys of the rules that fire on a record, in registration order. -/
def firingKeys (L : ParsedLog) : List String :=
  (initializeRules.filter fun r => r.Check L).map fun r => r.Name ++ ":" ++ L.Source

/-- A shutdown oracle under which the second cancellable send on Q3
observes the shutdown signal. -/
def shutdownAtSecondSend : Nat → Bool := fun i => i == 1

/-- The S1 input record. -/
def s1Entry : LogEntry :=
  { Timestamp := "2024-01-15T10:30:00Z", Level := "FATAL", Source := "db"
    Message := "Security breach from 10.0.0.1" }

/-- One step of the specification's whitespace splitting (`§3 keywords`):
a whitespace character opens a fresh token, any other character extends
the current one. -/
def specSplitStep (c : Char) (acc : List (List Char)) : List (List Char) :=
  if isSpaceGo c then [] :: acc
  else
    match acc with
    | [] => [[c]]
    | w :: ws => (c :: w) :: ws

/-- Whitespace splitting written as the specification describes it,
independent of the Go `strings.Fields` loop; empty chunks may appear and
are discarded by the length filter. -/
def specSplitWhitespace (l : List Char) : List (List Char) :=
  l.foldr specSplitStep []

/-- Strip only the trailing run of punctuation characters — the claim's
wording. -/
def stripTrailingPunct (w : List Char) : List Char :=
  (w.reverse.dropWhile fun c => punctCutset.contains c).reverse

/-- Strip the leading run of punctuation characters. -/
def stripLeadingPunct (w : List Char) : List Char :=
  w.dropWhile fun c => punctCutset.contains c

/-- The keyword pipeline exactly as C3 states it: whitespace split,
lowercase, strip only trailing punctuation, keep tokens of byte length
greater than 3. -/
def specKeywordsTrailingOnly (message : String) : List String :=
  (((specSplitWhitespace message.data).map fun w => stripTrailingPunct (toLowerGo w)).filter
    fun w => 3 < utf8Length w).map String.mk

/-- The keyword pipeline with the stripping amended to both ends:
whitespace split, lowercase, strip leading and trailing punctuation,
keep tokens of byte length greater than 3. -/
def specKeywordsBothEnds (message : String) : List String :=
  (((specSplitWhitespace message.data).map fun w =>
      stripTrailingPunct (stripLeadingPunct (toLowerGo w))).filter
    fun w => 3 < utf8Length w).map String.mk

/-- Merge a pending word prefix with the chunks produced by the
specification splitter; used to relate the accumulator of `fieldsAux`
to `specSplitWhitespace`. -/
def glueAcc (w : List Char) : List (List Char) → List (List Char)
  | [] => [w]
  | ch :: chs => (w ++ ch) :: chs

theorem bloom_bits_add_mono {bf : BloomFilter} {j : Nat} (x : String)
    (h : bf.bits j = true) : (bf.Add x).bits j = true := by
  simp [BloomFilter.Add, h]

theorem bloom_contains_mono {bf : BloomFilter} {K : String} (x : String)
    (h : bf.Contains K = true) : (bf.Add x).Contains K = true := by
  simp only [BloomFilter.Contains, List.all_eq_true] at h ⊢
  intro i hi
  exact bloom_bits_add_mono x (h i hi)

theorem bloom_contains_add_self (bf : BloomFilter) (x : String) :
    (bf.Add x).Contains x = true := by
  simp only [BloomFilter.Contains, BloomFilter.Add, BloomFilter.hash, List.all_eq_true]
  intro i hi
  rw [Bool.or_eq_true]
  right
  simp only [List.any_eq_true]
  exact ⟨i, hi, by simp⟩

theorem bloom_contains_addAll_mono {bf : BloomFilter} {K : String} (xs : List String)
    (h : bf.Contains K = true) : (bf.addAll xs).Contains K = true := by
  induction xs generalizing bf with
  | nil => simpa [BloomFilter.addAll]
  | cons x xs ih =>
    simp only [BloomFilter.addAll, List.foldl_cons] at *
    exact ih (bloom_contains_mono x h)

theorem processRules_contains_mono (now : String) (L : ParsedLog) (K : String) :
    ∀ (rs : List Rule) (st : AnalyzerState), st.bloomFilter.Contains K = true →
      ((processRules now L rs st).2).bloomFilter.Contains K = true := by
  intro rs
  induction rs with
  | nil => intro st h; simpa [processRules]
  | cons rule rest ih =>
    intro st h
    by_cases hc : rule.Check L
    · simpa [processRules, hc] using ih _ (bloom_contains_mono _ h)
    · simpa [processRules, hc] using ih _ h

theorem flagsOf_append (a₁ a₂ : List Alert) (K : String) :
    flagsOf (a₁ ++ a₂) K = flagsOf a₁ K ++ flagsOf a₂ K := by
  simp [flagsOf, kAlertsOf, List.filter_append]

theorem countsOf_append (a₁ a₂ : List Alert) (K : String) :
    countsOf (a₁ ++ a₂) K = countsOf a₁ K ++ countsOf a₂ K := by
  simp [countsOf, kAlertsOf, List.filter_append]

theorem processRules_flags_true_of_contains (now : String) (L : ParsedLog) (K : String) :
    ∀ (rs : List Rule) (st : AnalyzerState), st.bloomFilter.Contains K = true →
      ∀ b ∈ flagsOf (processRules now L rs st).1 K, b = true := by
  intro rs
  induction rs with
  | nil => intro st _ b hb; simp [processRules, flagsOf, kAlertsOf] at hb
  | cons rule rest ih =>
    intro st h b hb
    by_cases hc : rule.Check L
    · by_cases hk : rule.Name ++ ":" ++ L.Source = K
      · simp only [processRules, hc, if_true, flagsOf, kAlertsOf, List.filter_cons,
          alertKey, hk] at hb
        simp only [beq_self_eq_true, if_true, List.map_cons, List.mem_cons] at hb
        rcases hb with hb | hb
        · rw [hb]; exact h
        · exact ih _ (bloom_contains_mono _ h) b (by simpa [flagsOf, kAlertsOf] using hb)
      · simp only [processRules, hc, if_true, flagsOf, kAlertsOf, List.filter_cons,
          alertKey] at hb
        rw [if_neg (by simpa using hk)] at hb
        exact ih _ (bloom_contains_mono _ h) b (by simpa [flagsOf, kAlertsOf] using hb)
    · simp only [processRules, hc, if_false] at hb
      exact ih _ h b hb

theorem processRules_contains_of_flags_ne_nil (now : String) (L : ParsedLog) (K : String) :
    ∀ (rs : List Rule) (st : AnalyzerState),
      flagsOf (processRules now L rs st).1 K ≠ [] →
      ((processRules now L rs st).2).bloomFilter.Contains K = true := by
  intro rs
  induction rs with
  | nil => intro st hne; simp [processRules, flagsOf, kAlertsOf] at hne
  | cons rule rest ih =>
    intro st hne
    by_cases hc : rule.Check L
    · by_cases hk : rule.Name ++ ":" ++ L.Source = K
      · have : ((processRules now L rest
            (incrementWindow { st with bloomFilter := st.bloomFilter.Add (rule.Name ++ ":" ++ L.Source) }
              (rule.Name ++ ":" ++ L.Source)).2).2).bloomFilter.Contains K = true := by
          apply processRules_contains_mono
          show ((st.bloomFilter.Add (rule.Name ++ ":" ++ L.Source))).Contains K = true
          rw [hk] at *
          exact bloom_contains_add_self st.bloomFilter K
        simpa [processRules, hc] using this
      · simp only [processRules, hc, if_true, flagsOf, kAlertsOf, List.filter_cons,
          alertKey] at hne
        rw [if_neg (by simpa using hk)] at hne
        simpa [processRules, hc] using ih _ (by simpa [flagsOf, kAlertsOf] using hne)
    · simp only [processRules, hc, if_false] at hne ⊢
      exact ih _ hne

theorem processRules_flags_tail_true (now : String) (L : ParsedLog) (K : String) :
    ∀ (rs : List Rule) (st : AnalyzerState),
      ∀ b ∈ (flagsOf (processRules now L rs st).1 K).tail, b = true := by
  intro rs
  induction rs with
  | nil => intro st b hb; simp [processRules, flagsOf, kAlertsOf] at hb
  | cons rule rest ih =>
    intro st b hb
    by_cases hc : rule.Check L
    · by_cases hk : rule.Name ++ ":" ++ L.Source = K
      · simp only [processRules, hc, if_true, flagsOf, kAlertsOf, List.filter_cons,
          alertKey, hk] at hb
        simp only [beq_self_eq_true, if_true, List.map_cons, List.tail_cons] at hb
        refine processRules_flags_true_of_contains now L K rest
          (incrementWindow { st with bloomFilter := st.bloomFilter.Add K } K).2 ?_ b ?_
        · simpa [incrementWindow] using bloom_contains_add_self st.bloomFilter K
        · simpa [flagsOf, kAlertsOf] using hb
      · simp only [processRules, hc, if_true, flagsOf, kAlertsOf, List.filter_cons,
          alertKey] at hb
        rw [if_neg (by simpa using hk)] at hb
        exact ih _ b (by simpa [flagsOf, kAlertsOf] using hb)
    · simp only [processRules, hc, if_false] at hb
      exact ih _ b hb

theorem runAnalyzer_contains_mono (now : String) (K : String) :
    ∀ (events : List AnalyzerEvent) (st : AnalyzerState),
      st.bloomFilter.Contains K = true →
      ((runAnalyzer now st events).2).bloomFilter.Contains K = true := by
  intro events
  induction events with
  | nil => intro st h; simpa [runAnalyzer]
  | cons e rest ih =>
    intro st h
    cases e with
    | log entry =>
      simpa [runAnalyzer] using
        ih _ (processRules_contains_mono now entry K initializeRules st h)
    | tick => simpa [runAnalyzer] using ih (cleanupWindow st) h

theorem runAnalyzer_flags_true_of_contains (now : String) (K : String) :
    ∀ (events : List AnalyzerEvent) (st : AnalyzerState),
      st.bloomFilter.Contains K = true →
      ∀ b ∈ kFlagsFrom now st events K, b = true := by
  intro events
  induction events with
  | nil => intro st _ b hb; simp [runAnalyzer, kFlagsFrom, flagsOf, kAlertsOf] at hb
  | cons e rest ih =>
    intro st h b hb
    cases e with
    | log entry =>
      simp only [kFlagsFrom, runAnalyzer, flagsOf_append] at hb
      rcases List.mem_append.mp hb with hb | hb
      · exact processRules_flags_true_of_contains now entry K initializeRules st h b hb
      · exact ih _ (processRules_contains_mono now entry K initializeRules st h) b hb
    | tick =>
      simp only [kFlagsFrom, runAnalyzer] at hb
      exact ih (cleanupWindow st) h b hb

theorem runAnalyzer_contains_of_flags_ne_nil (now : String) (K : String) :
    ∀ (events : List AnalyzerEvent) (st : AnalyzerState),
      kFlagsFrom now st events K ≠ [] →
      ((runAnalyzer now st events).2).bloomFilter.Contains K = true := by
  intro events
  induction events with
  | nil => intro st hne; simp [runAnalyzer, kFlagsFrom, flagsOf, kAlertsOf] at hne
  | cons e rest ih =>
    intro st hne
    cases e with
    | log entry =>
      simp only [kFlagsFrom, runAnalyzer, flagsOf_append] at hne ⊢
      by_cases h2 : flagsOf (runAnalyzer now (processLog now st entry).2 rest).1 K = []
      · have h1 : flagsOf (processLog now st entry).1 K ≠ [] := by
          intro h1; exact hne (by rw [h1, h2]; rfl)
        exact runAnalyzer_contains_mono now K rest _
          (processRules_contains_of_flags_ne_nil now entry K initializeRules st h1)
      · exact ih _ h2
    | tick =>
      simp only [kFlagsFrom, runAnalyzer] at hne ⊢
      exact ih (cleanupWindow st) hne

theorem runAnalyzer_flags_tail_true (now : String) (K : String) :
    ∀ (events : List AnalyzerEvent) (st : AnalyzerState),
      ∀ b ∈ (kFlagsFrom now st events K).tail, b = true := by
  intro events
  induction events with
  | nil => intro st b hb; simp [runAnalyzer, kFlagsFrom, flagsOf, kAlertsOf] at hb
  | cons e rest ih =>
    intro st b hb
    cases e with
    | log entry =>
      simp only [kFlagsFrom, runAnalyzer, flagsOf_append, List.tail_append] at hb
      by_cases h1 : (flagsOf (processLog now st entry).1 K).isEmpty
      · rw [if_pos h1] at hb
        exact ih _ b hb
      · rw [if_neg h1] at hb
        rcases List.mem_append.mp hb with hb | hb
        · exact processRules_flags_tail_true now entry K initializeRules st b hb
        · have h1' : flagsOf (processLog now st entry).1 K ≠ [] := by
            intro h; rw [h] at h1; exact h1 rfl
          exact runAnalyzer_flags_true_of_contains now K rest _
            (processRules_contains_of_flags_ne_nil now entry K initializeRules st h1') b hb
    | tick =>
      simp only [kFlagsFrom, runAnalyzer] at hb
      exact ih (cleanupWindow st) b hb

/-- C2 counterexample: on a fresh analyzer, after two CRITICAL records
from sources `s4935` and `s14995`, the very first alert for the key
`Critical Error Level:victim` already carries `is_known_pattern = true`:
the bits those two keys set cover all three bit positions of the victim
key, a Bloom false positive. -/
theorem first_alert_known_pattern_counterexample :
    kFlagsFrom "t" NewAnalyzerState
      [AnalyzerEvent.log (parse { Timestamp := "t", Level := "CRITICAL", Source := "s4935", Message := "x" }),
       AnalyzerEvent.log (parse { Timestamp := "t", Level := "CRITICAL", Source := "s14995", Message := "x" }),
       AnalyzerEvent.log (parse { Timestamp := "t", Level := "CRITICAL", Source := "victim", Message := "x" })]
      "Critical Error Level:victim" = [true] := by
  decide

/-- C2 (amended): over any run of the analyzer from its initial state,
provided the first alert for key `K` does not sample a Bloom false
positive, the `is_known_pattern` flags for `K` are `false` for the first
alert and `true` for every subsequent one — the sample precedes the add,
and the filter never reports `false` for a key it has seen. -/
theorem known_pattern_first_false_then_true (now : String) (events : List AnalyzerEvent)
    (K : String)
    (hfp : (kFlagsFrom now NewAnalyzerState events K).head? ≠ some true) :
    kFlagsFrom now NewAnalyzerState events K
      = falseThenTrues (kFlagsFrom now NewAnalyzerState events K).length := by
  have htail := runAnalyzer_flags_tail_true now K events NewAnalyzerState
  revert hfp htail
  generalize kFlagsFrom now NewAnalyzerState events K = fs
  intro hfp htail
  cases fs with
  | nil => rfl
  | cons b rest =>
    have hb : b = false := by
      cases b
      · rfl
      · simp at hfp
    subst hb
    have hrest : rest = List.replicate rest.length true :=
      List.eq_replicate_iff.mpr ⟨rfl, fun x hx => htail x (by simpa using hx)⟩
    show false :: rest = falseThenTrues (rest.length + 1)
    simp only [falseThenTrues, List.cons.injEq, true_and]
    exact hrest

/-- Witness for C2 (amended): scenario S3 — two CRITICAL records from
source `api` on a fresh analyzer give flags `[false, true]`. -/
theorem known_pattern_first_false_then_true_witness :
    kFlagsFrom "t" NewAnalyzerState s3Events "Critical Error Level:api"
      = falseThenTrues (kFlagsFrom "t" NewAnalyzerState s3Events "Critical Error Level:api").length :=
  known_pattern_first_false_then_true "t" s3Events "Critical Error Level:api" (by decide)

/-- C1: evaluating `Ingestor.Start` at the failing input — both
listeners unable to bind — still yields a `nil` error: the bind failures
are only logged inside the server goroutines and never propagate out of
`Start`, contradicting the claim that `Start` fails with a `BindError`. -/
theorem ingestor_start_swallows_bind_failure :
    IngestorStart false false
      = (none, ListenerOutcome.bindErrorLogged, ListenerOutcome.bindErrorLogged) := by
  rfl

theorem processRules_reasons (now : String) (L : ParsedLog) :
    ∀ (rs : List Rule) (st : AnalyzerState),
      ((processRules now L rs st).1).map (fun a => (a.Reason, a.Severity))
        = (rs.filter fun r => r.Check L).map (fun r => (r.Name, r.Severity)) := by
  intro rs
  induction rs with
  | nil => intro st; simp [processRules]
  | cons rule rest ih =>
    intro st
    by_cases hc : rule.Check L
    · simp [processRules, hc, List.filter_cons, ih]
    · simp [processRules, hc, List.filter_cons, ih]

/-- C5: on any state without shutdown, a record produces exactly one
alert per firing rule — the alerts' reasons and severities are precisely
those of the rules whose predicate holds, in registration order, and the
default registration order is Critical Error Level, Error Code 5xx,
Suspicious Keywords, Error Rate Threshold. -/
theorem alerts_one_per_firing_rule (now : String) (st : AnalyzerState) (L : ParsedLog) :
    ((processLog now st L).1).map (fun a => (a.Reason, a.Severity))
        = (initializeRules.filter fun r => r.Check L).map (fun r => (r.Name, r.Severity))
    ∧ ((processLog now st L).1).length = (initializeRules.filter fun r => r.Check L).length
    ∧ initializeRules.map Rule.Name
        = ["Critical Error Level", "Error Code 5xx", "Suspicious Keywords", "Error Rate Threshold"] := by
  refine ⟨processRules_reasons now L initializeRules st, ?_, by rfl⟩
  have h := congrArg List.length (processRules_reasons now L initializeRules st)
  simpa using h

/-- C6: scenario S1 — parsing and analyzing the FATAL `db` record with
message `"Security breach from 10.0.0.1"` on a fresh analyzer yields
exactly two alerts, Critical Error Level (HIGH) then Suspicious Keywords
(MEDIUM), each with `count_in_window = 1`, `is_known_pattern = false`,
extracted IP `10.0.0.1`, and `"breach"` among the keywords. -/
theorem scenario_s1_two_alerts :
    ((processLog "2024-01-15T10:30:01Z" NewAnalyzerState (parse
        { Timestamp := "2024-01-15T10:30:00Z", Level := "FATAL", Source := "db"
          Message := "Security breach from 10.0.0.1" })).1).map
        (fun a => (a.Reason, a.Severity, a.Metadata.count_in_window,
          a.Metadata.is_known_pattern, a.Log.IP, a.Log.Keywords.contains "breach"))
      = [("Critical Error Level", "HIGH", 1, false, "10.0.0.1", true),
         ("Suspicious Keywords", "MEDIUM", 1, false, "10.0.0.1", true)] := by
  decide

/-- C7: `Add` only flips bits from 0 to 1, `Clear` zeroes every bit, and
once an item is added, `Contains` returns true under any further
sequence of adds — the filter has no false negatives within a clear
cycle. -/
theorem bloom_filter_invariants :
    (∀ (bf : BloomFilter) (x : String) (j : Nat),
        bf.bits j = true → (bf.Add x).bits j = true)
    ∧ (∀ (bf : BloomFilter) (j : Nat), (bf.Clear).bits j = false)
    ∧ (∀ (bf : BloomFilter) (x : String) (later : List String),
        ((bf.Add x).addAll later).Contains x = true) := by
  refine ⟨fun bf x j h => bloom_bits_add_mono x h, fun bf j => rfl, fun bf x later => ?_⟩
  exact bloom_contains_addAll_mono later (bloom_contains_add_self bf x)

/-- Witness for C7: a concrete bit set by adding `"a"` survives a
subsequent `Add "b"`. -/
theorem bloom_filter_invariants_witness :
    (((NewBloomFilter 100000 3).Add "a").Add "b").bits
      (fnv1a64 (utf8Bytes "a" ++ [0]) % 100000) = true :=
  bloom_filter_invariants.1 ((NewBloomFilter 100000 3).Add "a") "b"
    (fnv1a64 (utf8Bytes "a" ++ [0]) % 100000) (by decide)

/-- C8: `parse` carries the `timestamp`, `level`, `source` and `message`
fields of the raw record through unchanged. -/
theorem parse_carries_fields_unchanged (entry : LogEntry) :
    (parse entry).Timestamp = entry.Timestamp ∧ (parse entry).Level = entry.Level
    ∧ (parse entry).Source = entry.Source ∧ (parse entry).Message = entry.Message :=
  ⟨rfl, rfl, rfl, rfl⟩

theorem processRules_bits_mono (now : String) (L : ParsedLog) (j : Nat) :
    ∀ (rs : List Rule) (st : AnalyzerState), st.bloomFilter.bits j = true →
      ((processRules now L rs st).2).bloomFilter.bits j = true := by
  intro rs
  induction rs with
  | nil => intro st h; simpa [processRules]
  | cons rule rest ih =>
    intro st h
    by_cases hc : rule.Check L
    · simpa [processRules, hc] using ih _ (bloom_bits_add_mono _ h)
    · simpa [processRules, hc] using ih _ h

theorem runAnalyzer_bits_mono (now : String) (j : Nat) :
    ∀ (events : List AnalyzerEvent) (st : AnalyzerState),
      st.bloomFilter.bits j = true →
      ((runAnalyzer now st events).2).bloomFilter.bits j = true := by
  intro events
  induction events with
  | nil => intro st h; simpa [runAnalyzer]
  | cons e rest ih =>
    intro st h
    cases e with
    | log entry =>
      simpa [runAnalyzer] using ih _ (processRules_bits_mono now entry j initializeRules st h)
    | tick => simpa [runAnalyzer] using ih (cleanupWindow st) h

/-- C9: a window-reset tick zeroes every counter while leaving the Bloom
filter untouched, and over any run of the analyzer — records and ticks —
a set Bloom bit is never cleared, so the filter accumulates ever-seen
patterns for the analyzer's lifetime. -/
theorem window_reset_clears_counts_keeps_bloom :
    (∀ (st : AnalyzerState) (k : String), (cleanupWindow st).windowCount k = 0)
    ∧ (∀ (st : AnalyzerState), (cleanupWindow st).bloomFilter = st.bloomFilter)
    ∧ (∀ (now : String) (st : AnalyzerState) (events : List AnalyzerEvent) (j : Nat),
        st.bloomFilter.bits j = true →
        ((runAnalyzer now st events).2).bloomFilter.bits j = true) :=
  ⟨fun _ _ => rfl, fun _ => rfl,
   fun now st events j h => runAnalyzer_bits_mono now j events st h⟩

/-- Witness for C9: a set bit survives a window-reset tick. -/
theorem window_reset_clears_counts_keeps_bloom_witness :
    ((runAnalyzer "t" allSetAnalyzerState [AnalyzerEvent.tick]).2).bloomFilter.bits 0 = true :=
  window_reset_clears_counts_keeps_bloom.2.2 "t" allSetAnalyzerState [AnalyzerEvent.tick] 0 rfl

theorem incrementWindow_bloom (st : AnalyzerState) (key : String) :
    ((incrementWindow st key).2).bloomFilter = st.bloomFilter := rfl

theorem processRules_counts (now : String) (L : ParsedLog) (K : String) :
    ∀ (rs : List Rule) (st : AnalyzerState),
      countsOf (processRules now L rs st).1 K
        = List.range' (st.windowCount K + 1) (countsOf (processRules now L rs st).1 K).length
      ∧ ((processRules now L rs st).2).windowCount K
        = st.windowCount K + (countsOf (processRules now L rs st).1 K).length := by
  intro rs
  induction rs with
  | nil => intro st; simp [processRules, countsOf, kAlertsOf]
  | cons rule rest ih =>
    intro st
    by_cases hc : rule.Check L
    · by_cases hk : rule.Name ++ ":" ++ L.Source = K
      · subst hk
        obtain ⟨ihc, ihw⟩ := ih (incrementWindow
          { st with bloomFilter := st.bloomFilter.Add (rule.Name ++ ":" ++ L.Source) }
          (rule.Name ++ ":" ++ L.Source)).2
        simp only [processRules, hc, if_true, countsOf, kAlertsOf, List.filter_cons,
          alertKey, beq_self_eq_true, if_true, List.map_cons, List.length_cons] at *
        simp only [incrementWindow, eq_self_iff_true, if_true] at *
        constructor
        · rw [List.range'_succ]
          refine List.cons_eq_cons.mpr ⟨rfl, ?_⟩
          simpa using ihc
        · rw [ihw]
          omega
      · obtain ⟨ihc, ihw⟩ := ih (incrementWindow
          { st with bloomFilter := st.bloomFilter.Add (rule.Name ++ ":" ++ L.Source) }
          (rule.Name ++ ":" ++ L.Source)).2
        have hwc : ((incrementWindow
            { st with bloomFilter := st.bloomFilter.Add (rule.Name ++ ":" ++ L.Source) }
            (rule.Name ++ ":" ++ L.Source)).2).windowCount K = st.windowCount K := by
          simp only [incrementWindow]
          rw [if_neg (fun h => hk h.symm)]
        simp only [processRules, hc, if_true, countsOf, kAlertsOf, List.filter_cons,
          alertKey] at *
        rw [if_neg (by simpa using hk)]
        rw [hwc] at ihc ihw
        exact ⟨ihc, ihw⟩
    · have := ih st
      simpa [processRules, hc] using this

theorem runLogs_counts (now : String) (K : String) :
    ∀ (logs : List ParsedLog) (st : AnalyzerState), ∃ m,
      kCountsFrom now st (logs.map AnalyzerEvent.log) K
        = List.range' (st.windowCount K + 1) m
      ∧ ((runAnalyzer now st (logs.map AnalyzerEvent.log)).2).windowCount K
        = st.windowCount K + m := by
  intro logs
  induction logs with
  | nil =>
    intro st
    exact ⟨0, by simp [runAnalyzer, kCountsFrom, countsOf, kAlertsOf]⟩
  | cons L rest ih =>
    intro st
    obtain ⟨hc1, hw1⟩ := processRules_counts now L K initializeRules st
    rw [show processRules now L initializeRules st = processLog now st L from rfl] at hc1 hw1
    obtain ⟨m₂, hc2, hw2⟩ := ih (processLog now st L).2
    refine ⟨(countsOf (processLog now st L).1 K).length + m₂, ?_, ?_⟩
    · show countsOf (runAnalyzer now st (AnalyzerEvent.log L :: rest.map AnalyzerEvent.log)).1 K = _
      have hsplit : (runAnalyzer now st (AnalyzerEvent.log L :: rest.map AnalyzerEvent.log)).1
          = (processLog now st L).1 ++ (runAnalyzer now (processLog now st L).2 (rest.map AnalyzerEvent.log)).1 := by
        simp [runAnalyzer]
      rw [hsplit, countsOf_append]
      have hc2' : countsOf (runAnalyzer now (processLog now st L).2 (rest.map AnalyzerEvent.log)).1 K
          = List.range' (st.windowCount K + (countsOf (processLog now st L).1 K).length + 1) m₂ := by
        have := hc2
        rw [hw1] at this
        exact this
      rw [hc1, hc2']
      have harith : st.windowCount K + (countsOf (processLog now st L).1 K).length + 1
          = st.windowCount K + 1 + (countsOf (processLog now st L).1 K).length := by omega
      rw [harith, List.range'_append_1]
      have : m₂ + (countsOf (processLog now st L).1 K).length
          = (countsOf (processLog now st L).1 K).length + m₂ := by omega
      rw [this]
      simp [List.length_range']
    · show ((runAnalyzer now (processLog now st L).2 (rest.map AnalyzerEvent.log)).2).windowCount K = _
      rw [hw2, hw1]
      omega

/-- C4: from a fresh analyzer the `count_in_window` values for a fixed
key `K` form the sequence 1, 2, 3, …; a window tick resets every count
to zero, so after a boundary the values for `K` restart at 1; and the
counter operation returns the post-increment value, which is exactly the
value stored for the key. -/
theorem count_in_window_sequence (now : String) (K : String) :
    (∀ (w₁ : List ParsedLog),
        kCountsFrom now NewAnalyzerState (w₁.map AnalyzerEvent.log) K
          = List.range' 1 (kCountsFrom now NewAnalyzerState (w₁.map AnalyzerEvent.log) K).length)
    ∧ (∀ (st : AnalyzerState) (k : String), (cleanupWindow st).windowCount k = 0)
    ∧ (∀ (st : AnalyzerState) (w₂ : List ParsedLog),
        kCountsFrom now (cleanupWindow st) (w₂.map AnalyzerEvent.log) K
          = List.range' 1 (kCountsFrom now (cleanupWindow st) (w₂.map AnalyzerEvent.log) K).length)
    ∧ (∀ (st : AnalyzerState) (key : String),
        (incrementWindow st key).1 = st.windowCount key + 1
        ∧ (incrementWindow st key).1 = ((incrementWindow st key).2).windowCount key) := by
  have hgen : ∀ (st : AnalyzerState), st.windowCount K = 0 → ∀ (w : List ParsedLog),
      kCountsFrom now st (w.map AnalyzerEvent.log) K
        = List.range' 1 (kCountsFrom now st (w.map AnalyzerEvent.log) K).length := by
    intro st hz w
    obtain ⟨m, hc, _⟩ := runLogs_counts now K w st
    rw [hz] at hc
    rw [hc, List.length_range']
  refine ⟨fun w₁ => hgen NewAnalyzerState rfl w₁, fun _ _ => rfl,
    fun st w₂ => hgen (cleanupWindow st) rfl w₂, fun st key => ⟨rfl, ?_⟩⟩
  simp [incrementWindow]

theorem processRulesShutdown_spec (now : String) (L : ParsedLog) :
    ∀ (rs : List Rule) (σ : Nat → Bool) (j : Nat) (st : AnalyzerState),
      σ j = true → (∀ i, i < j → σ i = false) →
      j < (rs.filter fun r => r.Check L).length →
      processRulesShutdown σ now L rs st
        = ((processRules now L rs st).1.take j,
           (((rs.filter fun r => r.Check L).map fun r => r.Name ++ ":" ++ L.Source).take (j + 1)).foldl
             noteAlert st) := by
  intro rs
  induction rs with
  | nil =>
    intro σ j st _ _ hfire
    simp [List.filter_nil] at hfire
  | cons rule rest ih =>
    intro σ j st hj hlt hfire
    by_cases hc : rule.Check L
    · cases j with
      | zero =>
        simp [processRulesShutdown, processRules, hc, hj, List.filter_cons, noteAlert]
      | succ j' =>
        have h0 : σ 0 = false := hlt 0 (Nat.succ_pos j')
        have hfire' : j' < (rest.filter fun r => r.Check L).length := by
          simp only [List.filter_cons, hc, if_true, List.length_cons] at hfire
          omega
        have ihr := ih (fun i => σ (i + 1)) j'
          (incrementWindow
            { st with bloomFilter := st.bloomFilter.Add (rule.Name ++ ":" ++ L.Source) }
            (rule.Name ++ ":" ++ L.Source)).2 hj
          (fun i hi => hlt (i + 1) (Nat.succ_lt_succ hi)) hfire'
        simp only [processRulesShutdown, processRules, hc, if_true, h0, Bool.false_eq_true,
          if_false, List.filter_cons, List.map_cons, List.take_succ_cons, List.foldl_cons, ihr]
        simp [noteAlert]
    · have hfire' : j < (rest.filter fun r => r.Check L).length := by
        simpa [List.filter_cons, hc] using hfire
      have ihr := ih σ j st hj hlt hfire'
      simpa [processRulesShutdown, processRules, hc, List.filter_cons] using ihr

/-- C10: when the `j`-th cancellable send of a record's alerts observes
shutdown, the returned state carries the Bloom adds and counter
increments of the first `j + 1` firing rules — nothing is rolled back —
while only the first `j` alerts were emitted and no rule after the
abandoned one contributes anything. -/
theorem shutdown_keeps_prior_effects (σ : Nat → Bool) (now : String) (st : AnalyzerState)
    (L : ParsedLog) (j : Nat)
    (hj : σ j = true) (hbefore : ∀ i, i < j → σ i = false)
    (hfire : j < (initializeRules.filter fun r => r.Check L).length) :
    processLogShutdown σ now st L
      = ((processLog now st L).1.take j,
         ((firingKeys L).take (j + 1)).foldl noteAlert st) :=
  processRulesShutdown_spec now L initializeRules σ j st hj hbefore hfire

/-- Witness for C10: on the S1 record, with shutdown observed at the
second send, only the Critical Error Level alert is emitted while both
firing rules' Bloom and counter effects are retained. -/
theorem shutdown_keeps_prior_effects_witness :
    processLogShutdown shutdownAtSecondSend "t" NewAnalyzerState (parse s1Entry)
      = ((processLog "t" NewAnalyzerState (parse s1Entry)).1.take 1,
         ((firingKeys (parse s1Entry)).take 2).foldl noteAlert NewAnalyzerState) :=
  shutdown_keeps_prior_effects shutdownAtSecondSend "t" NewAnalyzerState (parse s1Entry) 1
    (by decide)
    (fun i hi => by
      have h0 : i = 0 := Nat.lt_one_iff.mp hi
      rw [h0]
      rfl)
    (by decide)

/-- C3 counterexample: on the message `".,breach"` the parser strips the
leading punctuation too (Go `strings.Trim` trims both ends), producing
keyword `"breach"`, while the claim's trailing-only stripping would
produce `".,breach"`. -/
theorem keywords_trailing_only_counterexample :
    (parse { Timestamp := "t", Level := "INFO", Source := "s", Message := ".,breach" }).Keywords
        = ["breach"]
    ∧ specKeywordsTrailingOnly ".,breach" = [".,breach"]
    ∧ (parse { Timestamp := "t", Level := "INFO", Source := "s", Message := ".,breach" }).Keywords
        ≠ specKeywordsTrailingOnly ".,breach" :=
  ⟨by decide, by decide, by decide⟩

theorem char_eq_iff_toNat_eq (a b : Char) : a = b ↔ a.toNat = b.toNat := by
  constructor
  · intro h; rw [h]
  · intro h
    have := congrArg Char.ofNat h
    rwa [Char.ofNat_toNat, Char.ofNat_toNat] at this

theorem char_beq_eq_toNat_beq (a b : Char) : (a == b) = (a.toNat == b.toNat) := by
  by_cases h : a = b
  · subst h; simp
  · have hn : a.toNat ≠ b.toNat := fun hn => h ((char_eq_iff_toNat_eq a b).mpr hn)
    simp [h, hn]

theorem char_toNat_lower_shift (c : Char) (h : 65 ≤ c.toNat ∧ c.toNat ≤ 90) :
    c.toLower.toNat = c.toNat + 32 := by
  have hvalid : (c.toNat + 32).isValidChar := Or.inl (by omega)
  unfold Char.toLower
  rw [if_pos ⟨h.1, h.2⟩]
  unfold Char.ofNat
  rw [dif_pos hvalid]
  unfold Char.ofNatAux Char.toNat UInt32.toNat
  simp

theorem char_toLower_id (c : Char) (h : ¬(65 ≤ c.toNat ∧ c.toNat ≤ 90)) :
    c.toLower = c := by
  unfold Char.toLower
  rw [if_neg h]

theorem punct_contains_toLower (c : Char) :
    punctCutset.contains c.toLower = punctCutset.contains c := by
  by_cases h : 65 ≤ c.toNat ∧ c.toNat ≤ 90
  · have hv := char_toNat_lower_shift c h
    have d1 : ('.' : Char).toNat = 46 := by decide
    have d2 : (',' : Char).toNat = 44 := by decide
    have d3 : (';' : Char).toNat = 59 := by decide
    have d4 : (':' : Char).toNat = 58 := by decide
    have d5 : ('!' : Char).toNat = 33 := by decide
    have d6 : ('?' : Char).toNat = 63 := by decide
    rw [Bool.eq_iff_iff]
    simp only [List.contains, List.elem_iff, punctCutset, List.mem_cons,
      List.not_mem_nil, or_false, char_eq_iff_toNat_eq, d1, d2, d3, d4, d5, d6, hv]
    omega
  · rw [char_toLower_id c h]

theorem trim_lower_comm (w : List Char) :
    toLowerGo (trimGo punctCutset w)
      = stripTrailingPunct (stripLeadingPunct (toLowerGo w)) := by
  have hp : ((fun c => punctCutset.contains c) ∘ Char.toLower)
      = fun c => punctCutset.contains c :=
    funext fun c => punct_contains_toLower c
  unfold toLowerGo trimGo stripTrailingPunct stripLeadingPunct
  rw [List.dropWhile_map, hp, ← List.map_reverse, List.dropWhile_map, hp, ← List.map_reverse]

theorem glueAcc_nil_filter (chs : List (List Char)) :
    (glueAcc [] chs).filter (fun w => !w.isEmpty)
      = chs.filter (fun w => !w.isEmpty) := by
  cases chs with
  | nil => rfl
  | cons ch chs => simp [glueAcc]

theorem glueAcc_step (a : List Char) (c : Char) (hc : isSpaceGo c = false)
    (chs : List (List Char)) :
    glueAcc a (specSplitStep c chs) = glueAcc (a ++ [c]) chs := by
  cases chs with
  | nil => simp [glueAcc, specSplitStep, hc]
  | cons w ws => simp [glueAcc, specSplitStep, hc]

theorem fieldsAux_spec (l : List Char) : ∀ acc : List Char,
    fieldsAux l acc
      = (glueAcc acc.reverse (specSplitWhitespace l)).filter (fun w => !w.isEmpty) := by
  induction l with
  | nil =>
    intro acc
    cases acc with
    | nil => rfl
    | cons a as => simp [fieldsAux, specSplitWhitespace, glueAcc]
  | cons c cs ih =>
    intro acc
    have hstep : specSplitWhitespace (c :: cs) = specSplitStep c (specSplitWhitespace cs) := rfl
    by_cases hsp : isSpaceGo c
    · rw [hstep]
      simp only [specSplitStep, hsp, if_true]
      cases acc with
      | nil =>
        simp only [fieldsAux, hsp, if_true, List.isEmpty_nil, List.reverse_nil]
        rw [ih []]
        simp only [List.reverse_nil, glueAcc, List.nil_append, List.filter_cons]
        cases specSplitWhitespace cs with
        | nil => simp [glueAcc]
        | cons ch chs => simp [glueAcc]
      | cons a as =>
        simp only [fieldsAux, hsp, if_true, List.isEmpty_cons, if_false]
        rw [ih []]
        simp only [List.reverse_nil, glueAcc, List.filter_cons, List.append_nil]
        have hne : ((a :: as).reverse.isEmpty) = false := by
          simp [List.isEmpty_iff]
        cases specSplitWhitespace cs with
        | nil => simp [hne]
        | cons ch chs => simp [hne]
    · have hsp' : isSpaceGo c = false := by simpa using hsp
      rw [hstep, glueAcc_step _ _ hsp']
      simp only [fieldsAux, hsp', if_false]
      rw [ih (c :: acc)]
      simp [List.reverse_cons]

theorem fieldsGo_spec (l : List Char) :
    fieldsGo l = (specSplitWhitespace l).filter (fun w => !w.isEmpty) := by
  have h := fieldsAux_spec l []
  rw [fieldsGo, h]
  simp only [List.reverse_nil]
  cases specSplitWhitespace l with
  | nil => rfl
  | cons ch chs => simp [glueAcc]

theorem filter_map_filter_isEmpty (T : List Char → List Char) (P : List Char → Bool)
    (hT : T [] = []) (hP : P [] = false) :
    ∀ l : List (List Char),
      ((l.filter (fun w => !w.isEmpty)).map T).filter P = ((l.map T).filter P) := by
  intro l
  induction l with
  | nil => rfl
  | cons w ws ih =>
    by_cases hw : w.isEmpty
    · have hw' : w = [] := List.isEmpty_iff.mp hw
      subst hw'
      simp [hT, hP, ih]
    · have hw' : w.isEmpty = false := by simpa using hw
      simp only [List.filter_cons, hw', Bool.not_false, if_true, List.map_cons]
      rw [ih]

/-- C3 (amended): the parser's keyword list equals the specification
pipeline with the stripping applied to both ends of each token —
whitespace split, lowercase, strip the punctuation set from both the
leading and the trailing end, keep tokens of byte length greater
than 3. -/
theorem keywords_match_spec_both_ends (entry : LogEntry) :
    (parse entry).Keywords = specKeywordsBothEnds entry.Message := by
  show keywordsOf entry.Message = specKeywordsBothEnds entry.Message
  unfold keywordsOf specKeywordsBothEnds
  rw [fieldsGo_spec]
  rw [filter_map_filter_isEmpty _ _ rfl rfl]
  have hT : (fun w => toLowerGo (trimGo punctCutset w))
      = fun w => stripTrailingPunct (stripLeadingPunct (toLowerGo w)) :=
    funext trim_lower_comm
  rw [hT]
